import Mathlib

/-!
Verification of the dependency-graph builder in `src/main.py`.

The development shallowly embeds the program: strings stay strings, Python
sets of identifiers become duplicate-free lists used through membership, the
`defaultdict(set)` graph becomes a duplicate-free edge list, and the while
loop of `build_transitive_graph` becomes a fuel-indexed iteration of a step
function.  File and network access are abstracted: the test-repo file is
passed as its content (`Option String`, `none` meaning the file is absent)
and the POM fetch/parse pipeline is a caller-supplied oracle.
-/

namespace Conf2

/-- Whitespace test matching Python's `str.isspace` on ASCII characters. -/
def pySpace (c : Char) : Bool :=
  c = ' ' || c = '\t' || c = '\n' || c = '\r' || c = '\x0b' || c = '\x0c'

/-- Python `str.strip` on a character list: drop leading and trailing whitespace. -/
def stripChars (l : List Char) : List Char :=
  ((l.dropWhile pySpace).reverse.dropWhile pySpace).reverse

/-- Python `str.strip`. -/
def pyStrip (s : String) : String := ⟨stripChars s.data⟩

/-- Python `str.lower` on a character list (ASCII case folding). -/
def lowerChars (l : List Char) : List Char := l.map Char.toLower

/-- Tests whether `pat` is an initial segment of `l`. -/
def listStarts : List Char → List Char → Bool
  | [], _ => true
  | _ :: _, [] => false
  | a :: pat, b :: l => a == b && listStarts pat l

/-- Tests whether `pat` occurs as a contiguous segment of `l`
(Python's substring test `pat in l`). -/
def occursIn (pat : List Char) : List Char → Bool
  | [] => listStarts pat []
  | c :: l => listStarts pat (c :: l) || occursIn pat l

/-- Case-insensitive substring filter `should_skip` (src/main.py lines 139-142):
an absent or empty filter never skips; otherwise the lowered filter must occur
in the lowered name. -/
def should_skip (filter_substr : Option String) (name : String) : Bool :=
  match filter_substr with
  | none => false
  | some f =>
    if f.data = [] then false
    else occursIn (lowerChars f.data) (lowerChars name.data)

/-- Helper for `pyWords`: accumulates the current (reversed) word while
scanning the input. -/
def wordsAux (p : Char → Bool) : List Char → List Char → List (List Char)
  | cur, [] => if cur.isEmpty then [] else [cur.reverse]
  | cur, c :: l =>
    if p c then
      if cur.isEmpty then wordsAux p [] l else cur.reverse :: wordsAux p [] l
    else wordsAux p (c :: cur) l

/-- Python `str.split()` with no argument: maximal whitespace-free words. -/
def pyWords (l : List Char) : List (List Char) := wordsAux pySpace [] l

/-- Overwriting insertion into an association map
(Python dict assignment `mapping[key] = deps`). -/
def mapSet (m : List (String × List String)) (k : String) (v : List String) :
    List (String × List String) :=
  match m with
  | [] => [(k, v)]
  | (k', v') :: rest => if k' = k then (k, v) :: rest else (k', v') :: mapSet rest k v

/-- One line of the fixture format folded into the accumulated mapping
(src/main.py `load_test_repo`, lines 104-115): blank lines and `#` comments
are skipped, `KEY: dep1 dep2 ...` maps the trimmed key to its
whitespace-separated dependencies, and a bare `KEY` maps to no dependencies. -/
def parse_test_line (m : List (String × List String)) (raw : String) :
    List (String × List String) :=
  let line := stripChars raw.data
  if line.isEmpty then m
  else if line.head? = some '#' then m
  else if ':' ∈ line then
    let left := line.takeWhile (fun c => c ≠ ':')
    let right := (line.dropWhile (fun c => c ≠ ':')).tail
    let key : String := ⟨stripChars left⟩
    let deps := (((pyWords right).map (fun w => (⟨stripChars w⟩ : String))).filter
      (fun w => !w.data.isEmpty))
    mapSet m key deps
  else mapSet m ⟨stripChars line⟩ []

/-- Helper for `splitLines`: accumulates the current (reversed) line. -/
def splitLinesAux : List Char → List Char → List String
  | cur, [] => [⟨cur.reverse⟩]
  | cur, c :: t =>
    if c = '\n' then (⟨cur.reverse⟩ : String) :: splitLinesAux [] t
    else splitLinesAux (c :: cur) t

/-- Splits a string at newline characters (Python `str.splitlines` for
newline-terminated text; a trailing empty line is ignored by the parser). -/
def splitLines (s : String) : List String := splitLinesAux [] s.data

/-- Parses the fixture mapping from the test-repo file content
(src/main.py `load_test_repo`, lines 99-116, with the file read abstracted to
the given content string; lines are separated by newline characters). -/
def load_test_repo (content : String) : List (String × List String) :=
  (splitLines content).foldl parse_test_line []

/-- Backend-selection mode (`remote`, `local` or `test`); `localM` stands for
the source's `local` mode, renamed because `local` is a Lean keyword. -/
inductive Mode
  | remote
  | localM
  | test
deriving Repr, DecidableEq

/-- Python `str.replace` for single characters. -/
def replaceChar (a b : Char) (s : String) : String :=
  ⟨s.data.map (fun c => if c = a then b else c)⟩

/-- Python `str.rstrip("/")`. -/
def rstripSlash (s : String) : String :=
  ⟨(s.data.reverse.dropWhile (fun c => c = '/')).reverse⟩

/-- POM path construction `build_pom_path` (src/main.py lines 43-52); the
local branch's `Path` joins are rendered with `/` separators. -/
def build_pom_path (group_id artifact_id version repo : String)
    (remoteMode : Bool) : String :=
  let group_path := replaceChar '.' '/' group_id
  if remoteMode then
    rstripSlash repo ++ "/" ++ group_path ++ "/" ++ artifact_id ++ "/" ++ version ++
      "/" ++ (artifact_id ++ "-" ++ version ++ ".pom")
  else
    repo ++ "/" ++ group_path ++ "/" ++ artifact_id ++ "/" ++ version ++
      "/" ++ (artifact_id ++ "-" ++ version ++ ".pom")

/-- Result of one `get_direct_deps` call, together with ghost flags recording
whether a POM fetch was attempted and whether a warning was emitted. -/
structure DepsCall where
  deps : List String
  fetched : Bool
  warned : Bool
deriving Repr, DecidableEq

/-- Direct-dependency provider `get_direct_deps` (src/main.py lines 144-160).
In test mode it is a fixture lookup with `[]` as default; otherwise a
coordinate without `:` yields no dependencies without fetching, and the POM
fetch plus XML parse are abstracted into `pomOracle` mapping the built path to
the parsed dependency list or a failure (any failure is swallowed into an
empty list plus a warning). -/
def get_direct_deps (mode : Mode) (test_repo_map : List (String × List String))
    (pomOracle : String → Except String (List String))
    (version repo : String) (coord : String) : DepsCall :=
  match mode with
  | Mode.test => ⟨(test_repo_map.lookup coord).getD [], false, false⟩
  | _ =>
    if ':' ∈ coord.data then
      let parts := coord.splitOn ":"
      let group_id := parts.getD 0 ""
      let artifact_id := parts.getD 1 ""
      let ver := if 3 ≤ parts.length ∧ parts.getD 2 "" ≠ "" then parts.getD 2 ""
                 else version
      match pomOracle (build_pom_path group_id artifact_id ver repo
          (decide (mode = Mode.remote))) with
      | Except.ok ds => ⟨ds, true, false⟩
      | Except.error _ => ⟨[], true, true⟩
    else ⟨[], false, false⟩

/-- State of the iterative DFS of `build_transitive_graph`: the explicit stack
of `(node, remaining-neighbor-iterator)` frames (head is the top of the
stack), the `in_stack` set, the recorded edge set, the `visited` set, the
cycle list and the post-order `load_order`; `fetchLog` is a ghost trace of the
coordinates passed to `get_direct_deps`. -/
structure DFSState where
  stack : List (String × List String)
  inStack : List String
  graph : List (String × String)
  visited : List String
  cycles : List (List String)
  loadOrder : List String
  fetchLog : List String
deriving Repr, DecidableEq

/-- Nodes currently on the stack, top first. -/
def stackNodes (s : DFSState) : List String := s.stack.map Prod.fst

/-- Set-insertion of a directed edge (`graph[node].add(nbr)` on the
`defaultdict(set)`). -/
def insertEdge (g : List (String × String)) (u v : String) :
    List (String × String) :=
  if (u, v) ∈ g then g else g ++ [(u, v)]

/-- Index of the first occurrence of `a` (Python `list.index`; returns the
length when `a` is absent, a case the program never reaches). -/
def firstIdx (a : String) : List String → Nat
  | [] => 0
  | b :: l => if b = a then 0 else firstIdx a l + 1

/-- Cycle reconstruction (src/main.py lines 185-187): the contiguous suffix of
the push-ordered stack nodes starting at the first frame equal to `nbr`,
closed by appending `nbr` once more. -/
def cyclePath (path : List String) (nbr : String) : List String :=
  path.drop (firstIdx nbr path) ++ [nbr]

/-- One iteration of the while loop of `build_transitive_graph`
(src/main.py lines 172-203); `none` signals an empty stack, i.e. loop exit. -/
def dfsStep (skip : String → Bool) (deps : String → List String) (s : DFSState) :
    Option DFSState :=
  match s.stack with
  | [] => none
  | (node, nbrs) :: rest =>
    match nbrs with
    | [] =>
      some { s with
        stack := rest
        inStack := s.inStack.erase node
        visited := if node ∈ s.visited then s.visited else s.visited ++ [node]
        loadOrder := if node ∈ s.visited then s.loadOrder else s.loadOrder ++ [node] }
    | nbr :: nbrs' =>
      if skip nbr then
        some { s with
          stack := (node, nbrs') :: rest
          graph := insertEdge s.graph node (nbr ++ " (skipped)") }
      else if nbr ∈ s.inStack then
        some { s with
          stack := (node, nbrs') :: rest
          graph := insertEdge s.graph node nbr
          cycles := s.cycles ++
            [cyclePath (((node, nbrs') :: rest).map Prod.fst).reverse nbr] }
      else if nbr ∈ s.visited then
        some { s with
          stack := (node, nbrs') :: rest
          graph := insertEdge s.graph node nbr }
      else
        some { s with
          stack := (nbr, deps nbr) :: (node, nbrs') :: rest
          inStack := nbr :: s.inStack
          graph := insertEdge s.graph node nbr
          fetchLog := s.fetchLog ++ [nbr] }

/-- Fuel-indexed iteration of `dfsStep`: runs the while loop for at most
`fuel` iterations (once the stack is empty further fuel changes nothing). -/
def dfsRun (skip : String → Bool) (deps : String → List String) :
    Nat → DFSState → DFSState
  | 0, s => s
  | n + 1, s =>
    match dfsStep skip deps s with
    | none => s
    | some s' => dfsRun skip deps n s'

/-- State just before the while loop: the start node fetched once and pushed
(src/main.py lines 167-170). -/
def initState (deps : String → List String) (start : String) : DFSState :=
  { stack := [(start, deps start)], inStack := [start], graph := [],
    visited := [], cycles := [], loadOrder := [], fetchLog := [start] }

/-- All-empty state; returned when the start node matches the filter. -/
def emptyState : DFSState :=
  { stack := [], inStack := [], graph := [], visited := [], cycles := [],
    loadOrder := [], fetchLog := [] }

/-- Core of `build_transitive_graph` (src/main.py lines 162-205), parametric
in the filter predicate and the dependency provider; `fuel` bounds the loop
iteration count. -/
def buildCore (skip : String → Bool) (deps : String → List String)
    (start_coord : String) (fuel : Nat) : DFSState :=
  if skip (pyStrip start_coord) then emptyState
  else dfsRun skip deps fuel (initState deps (pyStrip start_coord))

/-- Fatal errors of a run; `fileNotFound` is the `FileNotFoundError` raised by
`load_test_repo` when the test-repo file is absent. -/
inductive BuildError
  | fileNotFound
deriving Repr, DecidableEq

/-- Entry point `build_transitive_graph` (src/main.py lines 120-205).  In test
mode the fixture file is loaded and parsed first (its absence aborts the run
before the root filter is even consulted); then the core loop runs with the
mode's provider. -/
def build_transitive_graph (start_coord : String) (mode : Mode) (repo : String)
    (repoFileContent : Option String)
    (pomOracle : String → Except String (List String))
    (version : String) (filter_substr : Option String) (fuel : Nat) :
    Except BuildError DFSState :=
  match mode with
  | Mode.test =>
    match repoFileContent with
    | none => Except.error BuildError.fileNotFound
    | some txt =>
      let m := load_test_repo txt
      Except.ok (buildCore (should_skip filter_substr)
        (fun c => (get_direct_deps Mode.test m pomOracle version repo c).deps)
        start_coord fuel)
  | _ =>
    Except.ok (buildCore (should_skip filter_substr)
      (fun c => (get_direct_deps mode [] pomOracle version repo c).deps)
      start_coord fuel)

/-- Oracle that always fails; adequate for test-mode runs, which never
consult it. -/
def dummyOracle : String → Except String (List String) :=
  fun _ => Except.error "unavailable"

/-! ### Basic lemmas about edges, steps and runs -/

theorem mem_insertEdge {g : List (String × String)} {u v : String}
    {e : String × String} : e ∈ insertEdge g u v ↔ e ∈ g ∨ e = (u, v) := by
  unfold insertEdge
  split
  · rename_i hmem
    constructor
    · exact Or.inl
    · rintro (h | rfl)
      · exact h
      · exact hmem
  · simp [List.mem_append]

theorem dfsStep_stack_nil {skip : String → Bool} {deps : String → List String}
    {s : DFSState} (h : s.stack = []) : dfsStep skip deps s = none := by
  unfold dfsStep
  rw [h]

theorem dfsStep_stack_cons (skip : String → Bool) (deps : String → List String)
    {s : DFSState} {node : String} {nbrs : List String}
    {rest : List (String × List String)} (h : s.stack = (node, nbrs) :: rest) :
    ∃ s', dfsStep skip deps s = some s' := by
  unfold dfsStep
  rw [h]
  cases nbrs with
  | nil => exact ⟨_, rfl⟩
  | cons nbr nbrs' =>
    dsimp only
    split
    · exact ⟨_, rfl⟩
    · split
      · exact ⟨_, rfl⟩
      · split
        · exact ⟨_, rfl⟩
        · exact ⟨_, rfl⟩

theorem stack_nil_of_dfsStep_none {skip : String → Bool}
    {deps : String → List String} {s : DFSState}
    (h : dfsStep skip deps s = none) : s.stack = [] := by
  cases hstk : s.stack with
  | nil => rfl
  | cons p rest =>
    obtain ⟨node, nbrs⟩ := p
    obtain ⟨s', hs'⟩ := dfsStep_stack_cons skip deps hstk
    rw [hs'] at h
    cases h

theorem dfsRun_stack_nil {skip : String → Bool} {deps : String → List String}
    {s : DFSState} (h : s.stack = []) (k : Nat) : dfsRun skip deps k s = s := by
  cases k with
  | zero => rfl
  | succ n => simp [dfsRun, dfsStep_stack_nil h]

theorem dfsRun_add (skip : String → Bool) (deps : String → List String)
    (n m : Nat) (s : DFSState) :
    dfsRun skip deps (n + m) s = dfsRun skip deps m (dfsRun skip deps n s) := by
  induction n generalizing s with
  | zero => simp [dfsRun, Nat.zero_add]
  | succ n ih =>
    have hidx : n + 1 + m = (n + m) + 1 := by omega
    rw [hidx]
    cases hst : dfsStep skip deps s with
    | none =>
      have hnil : s.stack = [] := stack_nil_of_dfsStep_none hst
      simp [dfsRun, hst, dfsRun_stack_nil hnil]
    | some s' => simp [dfsRun, hst, ih]

theorem dfsRun_stable {skip : String → Bool} {deps : String → List String}
    {s : DFSState} {n : Nat} (h : (dfsRun skip deps n s).stack = [])
    {m : Nat} (hnm : n ≤ m) : dfsRun skip deps m s = dfsRun skip deps n s := by
  have hm : m = n + (m - n) := by omega
  rw [hm, dfsRun_add, dfsRun_stack_nil h]

theorem buildCore_stable {skip : String → Bool} {deps : String → List String}
    {start_coord : String} {n : Nat}
    (h : (buildCore skip deps start_coord n).stack = []) {m : Nat} (hnm : n ≤ m) :
    buildCore skip deps start_coord m = buildCore skip deps start_coord n := by
  unfold buildCore at h ⊢
  by_cases hsk : skip (pyStrip start_coord) = true
  · simp only [hsk, if_true]
  · simp only [hsk, if_false, Bool.false_eq_true] at h ⊢
    exact dfsRun_stable h hnm

/-! ### Monotonicity of the substring filter under suffixing -/

theorem occursIn_nil_pat (l : List Char) : occursIn [] l = true := by
  cases l <;> simp [occursIn, listStarts]

theorem listStarts_append {pat l : List Char} (h : listStarts pat l = true)
    (l' : List Char) : listStarts pat (l ++ l') = true := by
  induction pat generalizing l with
  | nil => rfl
  | cons a pat ih =>
    cases l with
    | nil => simp [listStarts] at h
    | cons b l =>
      simp only [listStarts, Bool.and_eq_true] at h
      simp only [List.cons_append, listStarts, Bool.and_eq_true]
      exact ⟨h.1, ih h.2⟩

theorem occursIn_append {pat l : List Char} (h : occursIn pat l = true)
    (l' : List Char) : occursIn pat (l ++ l') = true := by
  induction l with
  | nil =>
    cases pat with
    | nil => exact occursIn_nil_pat l'
    | cons a pat => simp [occursIn, listStarts] at h
  | cons c l ih =>
    simp only [occursIn, Bool.or_eq_true] at h
    simp only [List.cons_append, occursIn, Bool.or_eq_true]
    rcases h with h | h
    · exact Or.inl (by simpa using listStarts_append h l')
    · exact Or.inr (ih h)

theorem should_skip_append {fopt : Option String} {v : String}
    (h : should_skip fopt v = true) (t : String) :
    should_skip fopt (v ++ t) = true := by
  cases fopt with
  | none => simp [should_skip] at h
  | some f =>
    simp only [should_skip] at h ⊢
    split at h
    · cases h
    · rename_i hf
      rw [if_neg hf]
      have hdata : (v ++ t).data = v.data ++ t.data := String.data_append v t
      rw [hdata]
      unfold lowerChars
      rw [List.map_append]
      exact occursIn_append h _

/-! ### Relative position in a list -/

/-- Occurrence of `v` strictly before `u` in the list `l`. -/
def Before (v u : String) (l : List String) : Prop :=
  ∃ l1 l2 l3, l = l1 ++ v :: l2 ++ u :: l3

theorem memSplit {α : Type} {a : α} {l : List α} (h : a ∈ l) :
    ∃ s t, l = s ++ a :: t := List.append_of_mem h

theorem Before.append_right {v u : String} {l : List String}
    (h : Before v u l) (l' : List String) : Before v u (l ++ l') := by
  obtain ⟨l1, l2, l3, rfl⟩ := h
  exact ⟨l1, l2, l3 ++ l', by simp⟩

theorem Before.cons {v u : String} {l : List String} (a : String)
    (h : Before v u l) : Before v u (a :: l) := by
  obtain ⟨l1, l2, l3, rfl⟩ := h
  exact ⟨a :: l1, l2, l3, rfl⟩

theorem before_append_last {v u : String} {l : List String} (h : v ∈ l) :
    Before v u (l ++ [u]) := by
  obtain ⟨s, t, rfl⟩ := memSplit h
  exact ⟨s, t, [], by simp⟩

theorem before_nil_elim {v u : String} (h : Before v u []) : False := by
  obtain ⟨l1, l2, l3, heq⟩ := h
  cases l1 <;> simp at heq

/-! ### First-occurrence index -/

theorem firstIdx_lt_length {a : String} {l : List String} (h : a ∈ l) :
    firstIdx a l < l.length := by
  induction l with
  | nil => cases h
  | cons b l ih =>
    by_cases hb : b = a
    · simp [firstIdx, hb]
    · rcases List.mem_cons.mp h with rfl | h'
      · exact absurd rfl hb
      · have := ih h'
        simp only [firstIdx, if_neg hb, List.length_cons]
        omega

theorem head?_drop_firstIdx {a : String} {l : List String} (h : a ∈ l) :
    (l.drop (firstIdx a l)).head? = some a := by
  induction l with
  | nil => cases h
  | cons b l ih =>
    by_cases hb : b = a
    · simp [firstIdx, hb]
    · rcases List.mem_cons.mp h with rfl | h'
      · exact absurd rfl hb
      · simp only [firstIdx, if_neg hb, List.drop_succ_cons]
        exact ih h'

theorem not_mem_take_firstIdx (a : String) (l : List String) :
    a ∉ l.take (firstIdx a l) := by
  induction l with
  | nil => simp
  | cons b l ih =>
    by_cases hb : b = a
    · simp [firstIdx, hb]
    · simp only [firstIdx, if_neg hb, List.take_succ_cons]
      intro hmem
      rcases List.mem_cons.mp hmem with rfl | h'
      · exact hb rfl
      · exact ih h'

theorem getLast?_drop_of_lt {l : List String} {i : Nat} (h : i < l.length) :
    (l.drop i).getLast? = l.getLast? := by
  induction l generalizing i with
  | nil => simp at h
  | cons b l ih =>
    cases i with
    | zero => rfl
    | succ n =>
      have hn : n < l.length := by simpa using h
      rw [List.drop_succ_cons, ih hn]
      cases l with
      | nil => simp at hn
      | cons c m => rw [List.getLast?_cons_cons]

/-! ### The loop invariant of the DFS -/

/-- Ordering status of a recorded edge whose target does not match the
filter: either a cycle records it as a back-edge, or the target is already
emitted while the source still sits on the stack, or the target precedes the
source in the load order, or both are on the stack with the target strictly
above the source. -/
def EdgeOK (s : DFSState) (e : String × String) : Prop :=
  (∃ c ∈ s.cycles, ∃ c0, c = c0 ++ [e.1, e.2]) ∨
  (e.2 ∈ s.loadOrder ∧ e.1 ∈ stackNodes s) ∨
  Before e.2 e.1 s.loadOrder ∨
  Before e.2 e.1 (stackNodes s)

/-- Invariant maintained by every iteration of the DFS while loop. -/
structure Inv (skip : String → Bool) (s : DFSState) : Prop where
  hin : s.inStack = stackNodes s
  hnd : (stackNodes s).Nodup
  hdisj : ∀ x ∈ stackNodes s, x ∉ s.visited
  hvl : s.visited = s.loadOrder
  hvnd : s.visited.Nodup
  hkeys : ∀ e ∈ s.graph, e.1 ∈ stackNodes s ∨ e.1 ∈ s.visited
  hskS : ∀ x ∈ stackNodes s, skip x = false
  hskV : ∀ x ∈ s.visited, skip x = false
  hfnd : s.fetchLog.Nodup
  hflog : ∀ x, x ∈ s.fetchLog ↔ (x ∈ stackNodes s ∨ x ∈ s.visited)
  hedge : ∀ e ∈ s.graph, skip e.2 = false → EdgeOK s e

theorem edgeOK_extend {s s' : DFSState} {e : String × String} (h : EdgeOK s e)
    (hc : ∀ c ∈ s.cycles, c ∈ s'.cycles)
    (hlo : s'.loadOrder = s.loadOrder)
    (hsn : stackNodes s' = stackNodes s) : EdgeOK s' e := by
  rcases h with ⟨c, hcm, c0, hce⟩ | ⟨h1, h2⟩ | h | h
  · exact Or.inl ⟨c, hc c hcm, c0, hce⟩
  · exact Or.inr (Or.inl ⟨by rw [hlo]; exact h1, by rw [hsn]; exact h2⟩)
  · exact Or.inr (Or.inr (Or.inl (by rw [hlo]; exact h)))
  · exact Or.inr (Or.inr (Or.inr (by rw [hsn]; exact h)))

theorem edgeOK_push {s s' : DFSState} {e : String × String} (h : EdgeOK s e)
    (hc : s'.cycles = s.cycles) (hlo : s'.loadOrder = s.loadOrder)
    (a : String) (hsn : stackNodes s' = a :: stackNodes s) : EdgeOK s' e := by
  rcases h with ⟨c, hcm, c0, hce⟩ | ⟨h1, h2⟩ | h | h
  · exact Or.inl ⟨c, by rw [hc]; exact hcm, c0, hce⟩
  · refine Or.inr (Or.inl ⟨by rw [hlo]; exact h1, ?_⟩)
    rw [hsn]
    exact List.mem_cons_of_mem a h2
  · exact Or.inr (Or.inr (Or.inl (by rw [hlo]; exact h)))
  · refine Or.inr (Or.inr (Or.inr ?_))
    rw [hsn]
    exact h.cons a

theorem inv_init {skip : String → Bool} {deps : String → List String}
    {start : String} (h : skip start = false) :
    Inv skip (initState deps start) := by
  refine ⟨rfl, ?_, ?_, rfl, ?_, ?_, ?_, ?_, ?_, ?_, ?_⟩
  · simp [initState, stackNodes]
  · simp [initState, stackNodes]
  · simp [initState]
  · simp [initState]
  · intro x hx
    simp only [initState, stackNodes, List.map_cons, List.map_nil,
      List.mem_singleton] at hx
    rw [hx]
    exact h
  · simp [initState]
  · simp [initState]
  · intro x
    simp [initState, stackNodes]
  · simp [initState]

/-- The invariant survives replacing the top frame's remaining iterator and
updating graph and cycles, provided the key and edge fields are re-proved. -/
theorem inv_refresh {skip : String → Bool} {node : String}
    {nbrs nbrs' : List String} {rest : List (String × List String)}
    {ist : List String} {g g' : List (String × String)} {vis : List String}
    {cyc cyc' : List (List String)} {lo fl : List String}
    (hI : Inv skip ⟨(node, nbrs) :: rest, ist, g, vis, cyc, lo, fl⟩)
    (hkeys' : ∀ e ∈ g',
      e.1 ∈ stackNodes ⟨(node, nbrs) :: rest, ist, g, vis, cyc, lo, fl⟩ ∨ e.1 ∈ vis)
    (hedge' : ∀ e ∈ g', skip e.2 = false →
      EdgeOK ⟨(node, nbrs') :: rest, ist, g', vis, cyc', lo, fl⟩ e) :
    Inv skip ⟨(node, nbrs') :: rest, ist, g', vis, cyc', lo, fl⟩ := by
  obtain ⟨hin, hnd, hdisj, hvl, hvnd, hkeys, hskS, hskV, hfnd, hflog, hedge⟩ := hI
  have hsn : stackNodes ⟨(node, nbrs') :: rest, ist, g', vis, cyc', lo, fl⟩
      = stackNodes ⟨(node, nbrs) :: rest, ist, g, vis, cyc, lo, fl⟩ := by
    simp [stackNodes]
  refine ⟨?_, ?_, ?_, hvl, hvnd, ?_, ?_, hskV, hfnd, ?_, hedge'⟩
  · rw [hsn]; exact hin
  · rw [hsn]; exact hnd
  · rw [hsn]; exact hdisj
  · intro e he
    rw [hsn]
    exact hkeys' e he
  · rw [hsn]; exact hskS
  · intro x
    rw [hsn]
    exact hflog x

/-- Preservation at a pop step (neighbor iterator exhausted): the node leaves
the stack and is emitted into visited and the load order. -/
theorem inv_pop {skip : String → Bool} {node : String}
    {rest : List (String × List String)} {ist : List String}
    {g : List (String × String)} {vis : List String} {cyc : List (List String)}
    {lo fl : List String}
    (hI : Inv skip ⟨(node, []) :: rest, ist, g, vis, cyc, lo, fl⟩) :
    Inv skip ⟨rest, ist.erase node, g, vis ++ [node], cyc, lo ++ [node], fl⟩ := by
  obtain ⟨hin, hnd, hdisj, hvl, hvnd, hkeys, hskS, hskV, hfnd, hflog, hedge⟩ := hI
  have hin' : ist = node :: rest.map Prod.fst := by
    simpa only [stackNodes, List.map_cons] using hin
  have hnd' : (node :: rest.map Prod.fst).Nodup := by
    simpa only [stackNodes, List.map_cons] using hnd
  have hnR : node ∉ rest.map Prod.fst := (List.nodup_cons.mp hnd').1
  have hndR : (rest.map Prod.fst).Nodup := (List.nodup_cons.mp hnd').2
  have hdisj' : ∀ x ∈ node :: rest.map Prod.fst, x ∉ vis := by
    simpa only [stackNodes, List.map_cons] using hdisj
  have hnodev : node ∉ vis := hdisj' node (List.mem_cons_self node _)
  have hkeys' : ∀ e ∈ g, e.1 ∈ node :: rest.map Prod.fst ∨ e.1 ∈ vis := by
    simpa only [stackNodes, List.map_cons] using hkeys
  have hskS' : ∀ x ∈ node :: rest.map Prod.fst, skip x = false := by
    simpa only [stackNodes, List.map_cons] using hskS
  have hflog' : ∀ x, x ∈ fl ↔ (x ∈ node :: rest.map Prod.fst ∨ x ∈ vis) := by
    intro x
    have := hflog x
    simpa only [stackNodes, List.map_cons] using this
  refine ⟨?_, ?_, ?_, ?_, ?_, ?_, ?_, ?_, hfnd, ?_, ?_⟩
  · simp only [stackNodes]
    rw [hin']
    exact List.erase_cons_head node _
  · simp only [stackNodes]
    exact hndR
  · simp only [stackNodes]
    intro x hx hxv
    rcases List.mem_append.mp hxv with hv | hn
    · exact hdisj' x (List.mem_cons_of_mem _ hx) hv
    · rw [List.mem_singleton] at hn
      rw [hn] at hx
      exact hnR hx
  · show vis ++ [node] = lo ++ [node]
    rw [show vis = lo from hvl]
  · refine List.Nodup.append hvnd (List.nodup_singleton node) ?_
    intro a hav han
    rw [List.mem_singleton] at han
    rw [han] at hav
    exact hnodev hav
  · simp only [stackNodes]
    intro e he
    rcases hkeys' e he with h | h
    · rcases List.mem_cons.mp h with heq | hR
      · right
        rw [heq]
        exact List.mem_append_right _ (List.mem_singleton_self node)
      · left
        exact hR
    · right
      exact List.mem_append_left _ h
  · simp only [stackNodes]
    intro x hx
    exact hskS' x (List.mem_cons_of_mem _ hx)
  · intro x hxv
    rcases List.mem_append.mp hxv with h | h
    · exact hskV x h
    · rw [List.mem_singleton] at h
      rw [h]
      exact hskS' node (List.mem_cons_self _ _)
  · intro x
    have hold := hflog' x
    simp only [stackNodes, List.mem_cons, List.mem_append, List.mem_singleton] at hold ⊢
    tauto
  · intro e he hskf
    have hold := hedge e he hskf
    rcases hold with ⟨c, hcm, c0, hce⟩ | ⟨h1, h2⟩ | h | h
    · exact Or.inl ⟨c, hcm, c0, hce⟩
    · have h2' : e.1 ∈ node :: rest.map Prod.fst := by
        simpa only [stackNodes, List.map_cons] using h2
      have h1' : e.2 ∈ lo := h1
      rcases List.mem_cons.mp h2' with heq | hR
      · refine Or.inr (Or.inr (Or.inl ?_))
        show Before e.2 e.1 (lo ++ [node])
        rw [heq]
        exact before_append_last h1'
      · refine Or.inr (Or.inl ⟨List.mem_append_left _ h1', ?_⟩)
        simp only [stackNodes]
        exact hR
    · refine Or.inr (Or.inr (Or.inl ?_))
      show Before e.2 e.1 (lo ++ [node])
      exact Before.append_right h _
    · have h' : Before e.2 e.1 (node :: rest.map Prod.fst) := by
        simpa only [stackNodes, List.map_cons] using h
      obtain ⟨l1, l2, l3, heq⟩ := h'
      cases l1 with
      | nil =>
        rw [List.nil_append] at heq
        injection heq with hnode hrest
        refine Or.inr (Or.inl ⟨?_, ?_⟩)
        · show e.2 ∈ lo ++ [node]
          rw [← hnode]
          exact List.mem_append_right _ (List.mem_singleton_self node)
        · simp only [stackNodes]
          rw [hrest]
          simp
      | cons a l1' =>
        rw [List.cons_append] at heq
        injection heq with hnode hrest
        refine Or.inr (Or.inr (Or.inr ?_))
        simp only [stackNodes]
        exact ⟨l1', l2, l3, hrest⟩

/-- Preservation at a filtered-neighbor step: the marked edge is recorded and
nothing else changes. -/
theorem inv_skipcase {skip : String → Bool} {node nbr : String}
    {nbrs' : List String} {rest : List (String × List String)}
    {ist : List String} {g : List (String × String)} {vis : List String}
    {cyc : List (List String)} {lo fl : List String}
    (hmono : ∀ v, skip v = true → skip (v ++ " (skipped)") = true)
    (hsk : skip nbr = true)
    (hI : Inv skip ⟨(node, nbr :: nbrs') :: rest, ist, g, vis, cyc, lo, fl⟩) :
    Inv skip ⟨(node, nbrs') :: rest, ist,
      insertEdge g node (nbr ++ " (skipped)"), vis, cyc, lo, fl⟩ := by
  refine inv_refresh hI ?_ ?_
  · intro e he
    rcases mem_insertEdge.mp he with h | heq
    · exact hI.hkeys e h
    · rw [heq]
      left
      simp [stackNodes]
  · intro e he hskf
    rcases mem_insertEdge.mp he with h | heq
    · refine edgeOK_extend (hI.hedge e h hskf) (fun c hc => hc) rfl ?_
      simp [stackNodes]
    · exfalso
      subst heq
      simp only at hskf
      rw [hmono nbr hsk] at hskf
      exact Bool.noConfusion hskf

/-- Preservation at a back-edge step: the closed cycle path is appended. -/
theorem cyclePath_closes {restN : List String} {node nbr : String}
    (h : nbr ∈ node :: restN) :
    ∃ c0, cyclePath ((node :: restN).reverse) nbr = c0 ++ [node, nbr] := by
  have hmemp : nbr ∈ (node :: restN).reverse := List.mem_reverse.mpr h
  have hlt := firstIdx_lt_length hmemp
  obtain ⟨i, hidx⟩ : ∃ i, firstIdx nbr ((node :: restN).reverse) = i := ⟨_, rfl⟩
  rw [hidx] at hlt
  have hle : i ≤ restN.reverse.length := by
    simp only [List.length_reverse, List.length_cons] at hlt
    simp only [List.length_reverse]
    omega
  refine ⟨restN.reverse.drop i, ?_⟩
  unfold cyclePath
  rw [hidx, List.reverse_cons, List.drop_append_of_le_length hle]
  simp

theorem inv_cyclecase {skip : String → Bool} {node nbr : String}
    {nbrs' : List String} {rest : List (String × List String)}
    {ist : List String} {g : List (String × String)} {vis : List String}
    {cyc : List (List String)} {lo fl : List String}
    (hmem : nbr ∈ ist)
    (hI : Inv skip ⟨(node, nbr :: nbrs') :: rest, ist, g, vis, cyc, lo, fl⟩) :
    Inv skip ⟨(node, nbrs') :: rest, ist, insertEdge g node nbr, vis,
      cyc ++ [cyclePath (((node, nbrs') :: rest).map Prod.fst).reverse nbr],
      lo, fl⟩ := by
  refine inv_refresh hI ?_ ?_
  · intro e he
    rcases mem_insertEdge.mp he with h | heq
    · exact hI.hkeys e h
    · rw [heq]
      left
      simp [stackNodes]
  · intro e he hskf
    rcases mem_insertEdge.mp he with h | heq
    · refine edgeOK_extend (hI.hedge e h hskf) ?_ rfl ?_
      · intro c hc
        exact List.mem_append_left _ hc
      · simp [stackNodes]
    · subst heq
      have hmem' : nbr ∈ node :: rest.map Prod.fst := by
        have h1 := hI.hin
        simp only [stackNodes, List.map_cons] at h1
        rw [← h1]
        exact hmem
      have hrev : (((node, nbrs') :: rest).map Prod.fst).reverse
          = ((node :: rest.map Prod.fst : List String)).reverse := by simp
      refine Or.inl ⟨_, List.mem_append_right _ (List.mem_singleton_self _), ?_⟩
      rw [hrev]
      exact cyclePath_closes hmem'

/-- Preservation at an already-visited-neighbor step: the diamond edge is
recorded and nothing is pushed. -/
theorem inv_viscase {skip : String → Bool} {node nbr : String}
    {nbrs' : List String} {rest : List (String × List String)}
    {ist : List String} {g : List (String × String)} {vis : List String}
    {cyc : List (List String)} {lo fl : List String}
    (hmemv : nbr ∈ vis)
    (hI : Inv skip ⟨(node, nbr :: nbrs') :: rest, ist, g, vis, cyc, lo, fl⟩) :
    Inv skip ⟨(node, nbrs') :: rest, ist, insertEdge g node nbr, vis, cyc,
      lo, fl⟩ := by
  refine inv_refresh hI ?_ ?_
  · intro e he
    rcases mem_insertEdge.mp he with h | heq
    · exact hI.hkeys e h
    · rw [heq]
      left
      simp [stackNodes]
  · intro e he hskf
    rcases mem_insertEdge.mp he with h | heq
    · refine edgeOK_extend (hI.hedge e h hskf) (fun c hc => hc) rfl ?_
      simp [stackNodes]
    · subst heq
      refine Or.inr (Or.inl ⟨?_, ?_⟩)
      · show nbr ∈ lo
        rw [← (show vis = lo from hI.hvl)]
        exact hmemv
      · simp [stackNodes]

/-- Preservation at a push step: the fresh neighbor is fetched, pushed and
logged. -/
theorem inv_pushcase {skip : String → Bool} {deps : String → List String}
    {node nbr : String} {nbrs' : List String}
    {rest : List (String × List String)} {ist : List String}
    {g : List (String × String)} {vis : List String} {cyc : List (List String)}
    {lo fl : List String}
    (hsk : skip nbr = false) (hni : nbr ∉ ist) (hnv : nbr ∉ vis)
    (hI : Inv skip ⟨(node, nbr :: nbrs') :: rest, ist, g, vis, cyc, lo, fl⟩) :
    Inv skip ⟨(nbr, deps nbr) :: (node, nbrs') :: rest, nbr :: ist,
      insertEdge g node nbr, vis, cyc, lo, fl ++ [nbr]⟩ := by
  obtain ⟨hin, hnd, hdisj, hvl, hvnd, hkeys, hskS, hskV, hfnd, hflog, hedge⟩ := hI
  have hin' : ist = node :: rest.map Prod.fst := by
    simpa only [stackNodes, List.map_cons] using hin
  have hnd' : (node :: rest.map Prod.fst).Nodup := by
    simpa only [stackNodes, List.map_cons] using hnd
  have hdisj' : ∀ x ∈ node :: rest.map Prod.fst, x ∉ vis := by
    simpa only [stackNodes, List.map_cons] using hdisj
  have hkeys' : ∀ e ∈ g, e.1 ∈ node :: rest.map Prod.fst ∨ e.1 ∈ vis := by
    simpa only [stackNodes, List.map_cons] using hkeys
  have hskS' : ∀ x ∈ node :: rest.map Prod.fst, skip x = false := by
    simpa only [stackNodes, List.map_cons] using hskS
  have hflog' : ∀ x, x ∈ fl ↔ (x ∈ node :: rest.map Prod.fst ∨ x ∈ vis) := by
    intro x
    have := hflog x
    simpa only [stackNodes, List.map_cons] using this
  have hniN : nbr ∉ node :: rest.map Prod.fst := by
    rw [← hin']
    exact hni
  have hnfl : nbr ∉ fl := by
    intro hc
    rcases (hflog' nbr).mp hc with h | h
    · exact hniN h
    · exact hnv h
  refine ⟨?_, ?_, ?_, hvl, hvnd, ?_, ?_, hskV, ?_, ?_, ?_⟩
  · simp only [stackNodes, List.map_cons]
    rw [hin']
  · simp only [stackNodes, List.map_cons]
    exact List.nodup_cons.mpr ⟨hniN, hnd'⟩
  · simp only [stackNodes, List.map_cons]
    intro x hx
    rcases List.mem_cons.mp hx with heq | hx'
    · rw [heq]
      exact hnv
    · exact hdisj' x hx'
  · simp only [stackNodes, List.map_cons]
    intro e he
    rcases mem_insertEdge.mp he with h | heq
    · rcases hkeys' e h with h' | h'
      · exact Or.inl (List.mem_cons_of_mem _ h')
      · exact Or.inr h'
    · rw [heq]
      exact Or.inl (List.mem_cons_of_mem _ (List.mem_cons_self _ _))
  · simp only [stackNodes, List.map_cons]
    intro x hx
    rcases List.mem_cons.mp hx with heq | hx'
    · rw [heq]
      exact hsk
    · exact hskS' x hx'
  · refine List.Nodup.append hfnd (List.nodup_singleton nbr) ?_
    intro a ha ha'
    rw [List.mem_singleton] at ha'
    rw [ha'] at ha
    exact hnfl ha
  · intro x
    have := hflog' x
    simp only [stackNodes, List.map_cons, List.mem_append, List.mem_singleton,
      List.mem_cons] at this ⊢
    tauto
  · intro e he hskf
    rcases mem_insertEdge.mp he with h | heq
    · refine edgeOK_push (hedge e h hskf) rfl rfl nbr ?_
      simp [stackNodes]
    · subst heq
      refine Or.inr (Or.inr (Or.inr ?_))
      exact ⟨[], [], rest.map Prod.fst, by simp [stackNodes]⟩

/-- The invariant is preserved by every iteration of the while loop. -/
theorem inv_step {skip : String → Bool} {deps : String → List String}
    (hmono : ∀ v, skip v = true → skip (v ++ " (skipped)") = true)
    {s s' : DFSState} (hI : Inv skip s)
    (hs : dfsStep skip deps s = some s') : Inv skip s' := by
  obtain ⟨stk, ist, g, vis, cyc, lo, fl⟩ := s
  cases stk with
  | nil => simp [dfsStep] at hs
  | cons top rest =>
    obtain ⟨node, nbrs⟩ := top
    cases nbrs with
    | nil =>
      have hnodev : node ∉ vis := hI.hdisj node (by simp [stackNodes])
      simp only [dfsStep] at hs
      simp only [hnodev, if_false] at hs
      have hx := Option.some.inj hs
      subst hx
      exact inv_pop hI
    | cons nbr nbrs' =>
      simp only [dfsStep] at hs
      by_cases hsk : skip nbr = true
      · rw [if_pos hsk] at hs
        have hx := Option.some.inj hs
        subst hx
        exact inv_skipcase hmono hsk hI
      · have hskf : skip nbr = false := by
          cases hb : skip nbr
          · rfl
          · exact absurd hb hsk
        rw [if_neg hsk] at hs
        by_cases hmem : nbr ∈ ist
        · rw [if_pos hmem] at hs
          have hx := Option.some.inj hs
          subst hx
          exact inv_cyclecase hmem hI
        · rw [if_neg hmem] at hs
          by_cases hmemv : nbr ∈ vis
          · rw [if_pos hmemv] at hs
            have hx := Option.some.inj hs
            subst hx
            exact inv_viscase hmemv hI
          · rw [if_neg hmemv] at hs
            have hx := Option.some.inj hs
            subst hx
            exact inv_pushcase hskf hmem hmemv hI

/-! ### Termination of the DFS loop over a finite provider mapping -/

/-- Key and value identifiers occurring in a fixture mapping. -/
def keysVals : List (String × List String) → List String
  | [] => []
  | (k, vs) :: rest => k :: (vs ++ keysVals rest)

/-- The test-mode provider: fixture lookup with empty default
(`test_repo_map.get(coord, [])`, src/main.py line 146). -/
def lookupDeps (m : List (String × List String)) (c : String) : List String :=
  (m.lookup c).getD []

theorem get_direct_deps_test (m : List (String × List String))
    (pomOracle : String → Except String (List String)) (version repo c : String) :
    (get_direct_deps Mode.test m pomOracle version repo c).deps = lookupDeps m c :=
  rfl

theorem lookupDeps_subset_keysVals {m : List (String × List String)}
    {c v : String} (h : v ∈ lookupDeps m c) : v ∈ keysVals m := by
  induction m with
  | nil => simp [lookupDeps, List.lookup] at h
  | cons p rest ih =>
    obtain ⟨k, vs⟩ := p
    by_cases hk : (c == k) = true
    · simp only [lookupDeps, List.lookup_cons, hk, Option.getD_some] at h
      simp only [keysVals, List.mem_cons, List.mem_append]
      exact Or.inr (Or.inl h)
    · have hk' : (c == k) = false := by
        revert hk
        cases c == k <;> simp
      simp only [lookupDeps, List.lookup_cons, hk'] at h
      simp only [keysVals, List.mem_cons, List.mem_append]
      exact Or.inr (Or.inr (ih h))

/-- Boundedness invariant for termination: in_stack mirrors the stack nodes
and every identifier in play lies in the universe U. -/
structure InvT (deps : String → List String) (U : List String)
    (s : DFSState) : Prop where
  hin : s.inStack = stackNodes s
  hstk : ∀ p ∈ s.stack, p.1 ∈ U ∧ ∀ v ∈ p.2, v ∈ U
  hvis : ∀ x ∈ s.visited, x ∈ U

/-- Weight of a stack: one per frame plus the remaining iterator lengths. -/
def stackWeight (stk : List (String × List String)) : Nat :=
  (stk.map (fun p => 1 + p.2.length)).sum

theorem stackWeight_cons (p : String × List String)
    (l : List (String × List String)) :
    stackWeight (p :: l) = (1 + p.2.length) + stackWeight l := by
  simp [stackWeight]

/-- Number of distinct identifiers already claimed by in_stack or visited. -/
def usedCount (ist vis : List String) : Nat := (ist ++ vis).toFinset.card

/-- Upper bound on the provider's fan-out over the universe. -/
def depBound (deps : String → List String) (U : List String) : Nat :=
  (U.map (fun u => (deps u).length)).foldr Nat.max 0

/-- Decreasing measure of the DFS loop. -/
def dfsMeasure (deps : String → List String) (U : List String)
    (s : DFSState) : Nat :=
  (U.dedup.length - usedCount s.inStack s.visited) * (depBound deps U + 1)
    + stackWeight s.stack

theorem length_le_depBound {deps : String → List String} {U : List String}
    {u : String} (h : u ∈ U) : (deps u).length ≤ depBound deps U := by
  induction U with
  | nil => cases h
  | cons a U ih =>
    simp only [depBound, List.map_cons, List.foldr_cons]
    rcases List.mem_cons.mp h with rfl | h'
    · exact Nat.le_max_left _ _
    · exact le_trans (ih h') (Nat.le_max_right _ _)

theorem usedCount_le {deps : String → List String} {U : List String}
    {s : DFSState} (h : InvT deps U s) :
    usedCount s.inStack s.visited ≤ U.dedup.length := by
  rw [← List.card_toFinset]
  unfold usedCount
  apply Finset.card_le_card
  intro x hx
  rw [List.mem_toFinset] at hx ⊢
  rcases List.mem_append.mp hx with hx | hx
  · rw [h.hin] at hx
    simp only [stackNodes, List.mem_map] at hx
    obtain ⟨p, hp, rfl⟩ := hx
    exact (h.hstk p hp).1
  · exact h.hvis x hx

theorem usedCount_pop_ge (ist vis : List String) (node : String)
    (hmem : node ∈ ist) :
    usedCount ist vis ≤
      usedCount (ist.erase node)
        (if node ∈ vis then vis else vis ++ [node]) := by
  unfold usedCount
  apply Finset.card_le_card
  intro x hx
  rw [List.mem_toFinset] at hx ⊢
  rw [List.mem_append] at hx ⊢
  by_cases hxn : x = node
  · subst hxn
    right
    split
    · assumption
    · exact List.mem_append_right _ (List.mem_singleton_self _)
  · rcases hx with hx | hx
    · left
      exact (List.mem_erase_of_ne hxn).mpr hx
    · right
      split
      · exact hx
      · exact List.mem_append_left _ hx

theorem usedCount_push {ist vis : List String} {nbr : String}
    (h1 : nbr ∉ ist) (h2 : nbr ∉ vis) :
    usedCount (nbr :: ist) vis = usedCount ist vis + 1 := by
  unfold usedCount
  have hnotin : nbr ∉ (ist ++ vis).toFinset := by
    rw [List.mem_toFinset, List.mem_append]
    rintro (hc | hc)
    · exact h1 hc
    · exact h2 hc
  rw [List.cons_append, List.toFinset_cons, Finset.card_insert_of_not_mem hnotin]

/-- Each DFS step preserves boundedness and strictly decreases the measure. -/
theorem invT_step {skip : String → Bool} {deps : String → List String}
    {U : List String} {s s' : DFSState}
    (hU : ∀ u ∈ U, ∀ v ∈ deps u, v ∈ U)
    (hT : InvT deps U s) (hs : dfsStep skip deps s = some s') :
    InvT deps U s' ∧ dfsMeasure deps U s' < dfsMeasure deps U s := by
  obtain ⟨stk, ist, g, vis, cyc, lo, fl⟩ := s
  obtain ⟨hin, hstk, hvis⟩ := hT
  cases stk with
  | nil => simp [dfsStep] at hs
  | cons top rest =>
    obtain ⟨node, nbrs⟩ := top
    have htop := hstk (node, nbrs) (List.mem_cons_self _ _)
    have hnodeU : node ∈ U := htop.1
    have hin' : ist = node :: rest.map Prod.fst := by
      simpa only [stackNodes, List.map_cons] using hin
    have hrest : ∀ p ∈ rest, p.1 ∈ U ∧ ∀ v ∈ p.2, v ∈ U :=
      fun p hp => hstk p (List.mem_cons_of_mem _ hp)
    cases nbrs with
    | nil =>
      simp only [dfsStep] at hs
      have hx := Option.some.inj hs
      subst hx
      constructor
      · refine ⟨?_, hrest, ?_⟩
        · simp only [stackNodes]
          rw [hin']
          exact List.erase_cons_head node _
        · intro x hx
          split at hx
          · exact hvis x hx
          · rcases List.mem_append.mp hx with h | h
            · exact hvis x h
            · rw [List.mem_singleton] at h
              rw [h]
              exact hnodeU
      · unfold dfsMeasure
        have hge := usedCount_pop_ge ist vis node (by
          rw [hin']
          exact List.mem_cons_self _ _)
        have hmul :
            (U.dedup.length -
                usedCount (ist.erase node)
                  (if node ∈ vis then vis else vis ++ [node]))
                * (depBound deps U + 1)
              ≤ (U.dedup.length - usedCount ist vis) * (depBound deps U + 1) :=
          Nat.mul_le_mul_right _ (Nat.sub_le_sub_left hge _)
        simp only [stackWeight_cons] at *
        simp only [List.length_nil]
        omega
    | cons nbr nbrs' =>
      have hnbrU : nbr ∈ U := htop.2 nbr (List.mem_cons_self _ _)
      have hnbrs' : ∀ v ∈ nbrs', v ∈ U :=
        fun v hv => htop.2 v (List.mem_cons_of_mem _ hv)
      have hTadv : ∀ (g' : List (String × String)) (cyc' : List (List String)),
          InvT deps U ⟨(node, nbrs') :: rest, ist, g', vis, cyc', lo, fl⟩ := by
        intro g' cyc'
        refine ⟨?_, ?_, hvis⟩
        · simpa only [stackNodes, List.map_cons] using hin'
        · intro p hp
          rcases List.mem_cons.mp hp with heq | hp'
          · rw [heq]
            exact ⟨hnodeU, hnbrs'⟩
          · exact hrest p hp'
      simp only [dfsStep] at hs
      by_cases hsk : skip nbr = true
      · rw [if_pos hsk] at hs
        have hx := Option.some.inj hs
        subst hx
        constructor
        · exact hTadv _ _
        · unfold dfsMeasure
          simp only [stackWeight_cons]
          simp only [List.length_cons]
          omega
      · rw [if_neg hsk] at hs
        by_cases hmem : nbr ∈ ist
        · rw [if_pos hmem] at hs
          have hx := Option.some.inj hs
          subst hx
          refine ⟨hTadv _ _, ?_⟩
          unfold dfsMeasure
          simp only [stackWeight_cons]
          simp only [List.length_cons]
          omega
        · rw [if_neg hmem] at hs
          by_cases hmemv : nbr ∈ vis
          · rw [if_pos hmemv] at hs
            have hx := Option.some.inj hs
            subst hx
            refine ⟨hTadv _ _, ?_⟩
            unfold dfsMeasure
            simp only [stackWeight_cons]
            simp only [List.length_cons]
            omega
          · rw [if_neg hmemv] at hs
            have hx := Option.some.inj hs
            subst hx
            have hTpush : InvT deps U
                ⟨(nbr, deps nbr) :: (node, nbrs') :: rest, nbr :: ist,
                  insertEdge g node nbr, vis, cyc, lo, fl ++ [nbr]⟩ := by
              refine ⟨?_, ?_, hvis⟩
              · simp only [stackNodes, List.map_cons]
                rw [hin']
              · intro p hp
                rcases List.mem_cons.mp hp with heq | hp'
                · rw [heq]
                  exact ⟨hnbrU, fun v hv => hU nbr hnbrU v hv⟩
                · rcases List.mem_cons.mp hp' with heq' | hp''
                  · rw [heq']
                    exact ⟨hnodeU, hnbrs'⟩
                  · exact hrest p hp''
            refine ⟨hTpush, ?_⟩
            unfold dfsMeasure
            have hpush := usedCount_push hmem hmemv
            have hub := usedCount_le hTpush
            simp only at hub
            rw [hpush] at hub
            have hNu : U.dedup.length - usedCount ist vis
                = (U.dedup.length - (usedCount ist vis + 1)) + 1 := by
              omega
            have hdist :
                (U.dedup.length - usedCount ist vis) * (depBound deps U + 1)
                  = (U.dedup.length - (usedCount ist vis + 1))
                      * (depBound deps U + 1) + (depBound deps U + 1) := by
              rw [hNu, Nat.succ_mul]
            have hlen : (deps nbr).length ≤ depBound deps U :=
              length_le_depBound hnbrU
            simp only [stackWeight_cons, List.length_cons]
            rw [hpush, hdist]
            omega

/-- With fuel at least the measure, the loop runs to completion. -/
theorem dfsRun_done (skip : String → Bool) {deps : String → List String}
    {U : List String} (hU : ∀ u ∈ U, ∀ v ∈ deps u, v ∈ U) :
    ∀ (k : Nat) (s : DFSState), InvT deps U s → dfsMeasure deps U s ≤ k →
      (dfsRun skip deps k s).stack = [] ∧
        InvT deps U (dfsRun skip deps k s) := by
  intro k
  induction k with
  | zero =>
    intro s hT hm
    have hsw : stackWeight s.stack = 0 := by
      unfold dfsMeasure at hm
      omega
    have hnil : s.stack = [] := by
      cases hstk : s.stack with
      | nil => rfl
      | cons p rest =>
        rw [hstk, stackWeight_cons] at hsw
        omega
    exact ⟨by simpa [dfsRun] using hnil, by simpa [dfsRun] using hT⟩
  | succ n ih =>
    intro s hT hm
    cases hstk : s.stack with
    | nil =>
      have hnone : dfsStep skip deps s = none := dfsStep_stack_nil hstk
      exact ⟨by simp [dfsRun, hnone, hstk], by simpa [dfsRun, hnone] using hT⟩
    | cons p rest =>
      obtain ⟨node, nbrs⟩ := p
      obtain ⟨s', hs'⟩ := dfsStep_stack_cons skip deps hstk
      obtain ⟨hT', hlt⟩ := invT_step hU hT hs'
      have hm' : dfsMeasure deps U s' ≤ n := by omega
      have hres := ih s' hT' hm'
      simpa [dfsRun, hs'] using hres

/-- Universe of identifiers reachable in a test-mode run. -/
def repoUniverse (m : List (String × List String)) (start_coord : String) :
    List String :=
  pyStrip start_coord :: keysVals m

theorem repoUniverse_closed (m : List (String × List String))
    (start_coord : String) :
    ∀ u ∈ repoUniverse m start_coord, ∀ v ∈ lookupDeps m u,
      v ∈ repoUniverse m start_coord :=
  fun _ _ _ hv => List.mem_cons_of_mem _ (lookupDeps_subset_keysVals hv)

/-- Loop bound sufficient for any test-mode run over the mapping `m`. -/
def adequateFuel (m : List (String × List String)) (start_coord : String) : Nat :=
  ((repoUniverse m start_coord).dedup.length + 1)
    * (depBound (lookupDeps m) (repoUniverse m start_coord) + 1)

theorem dfsMeasure_init_le (m : List (String × List String))
    (start_coord : String) :
    dfsMeasure (lookupDeps m) (repoUniverse m start_coord)
        (initState (lookupDeps m) (pyStrip start_coord))
      ≤ adequateFuel m start_coord := by
  have hstartU : pyStrip start_coord ∈ repoUniverse m start_coord :=
    List.mem_cons_self _ _
  have hlen : (lookupDeps m (pyStrip start_coord)).length
      ≤ depBound (lookupDeps m) (repoUniverse m start_coord) :=
    length_le_depBound hstartU
  have hN : 1 ≤ (repoUniverse m start_coord).dedup.length := by
    have h1 : pyStrip start_coord ∈ (repoUniverse m start_coord).dedup :=
      List.mem_dedup.mpr hstartU
    exact List.length_pos.mpr (List.ne_nil_of_mem h1)
  have hused : usedCount [pyStrip start_coord] [] = 1 := by
    simp [usedCount]
  have hexp : ((repoUniverse m start_coord).dedup.length + 1)
        * (depBound (lookupDeps m) (repoUniverse m start_coord) + 1)
      = ((repoUniverse m start_coord).dedup.length - 1)
          * (depBound (lookupDeps m) (repoUniverse m start_coord) + 1)
        + (depBound (lookupDeps m) (repoUniverse m start_coord) + 1)
        + (depBound (lookupDeps m) (repoUniverse m start_coord) + 1) := by
    have h2 : (repoUniverse m start_coord).dedup.length + 1
        = ((repoUniverse m start_coord).dedup.length - 1) + 2 := by omega
    rw [h2]
    ring
  unfold dfsMeasure adequateFuel initState
  simp only [stackWeight, List.map_cons, List.map_nil, List.sum_cons,
    List.sum_nil]
  rw [hused, hexp]
  omega

/-- The invariant holds after any number of loop iterations. -/
theorem inv_run {skip : String → Bool} {deps : String → List String}
    (hmono : ∀ v, skip v = true → skip (v ++ " (skipped)") = true)
    {s : DFSState} (hI : Inv skip s) (k : Nat) :
    Inv skip (dfsRun skip deps k s) := by
  induction k generalizing s with
  | zero => exact hI
  | succ n ih =>
    cases hst : dfsStep skip deps s with
    | none => simpa [dfsRun, hst] using hI
    | some s' =>
      simp only [dfsRun, hst]
      exact ih (inv_step hmono hI hst)

/-- The invariant holds for the state returned by the core builder whenever
the start node passes the filter. -/
theorem inv_buildCore (fopt : Option String) (deps : String → List String)
    (start_coord : String) (fuel : Nat)
    (h : should_skip fopt (pyStrip start_coord) = false) :
    Inv (should_skip fopt) (buildCore (should_skip fopt) deps start_coord fuel) := by
  unfold buildCore
  have hne : ¬ should_skip fopt (pyStrip start_coord) = true := by
    rw [h]
    exact Bool.false_ne_true
  rw [if_neg hne]
  exact inv_run (fun v hv => @should_skip_append fopt v hv " (skipped)")
    (inv_init h) fuel

/-- Stack nodes of a state whose stack is empty. -/
theorem stackNodes_nil {s : DFSState} (h : s.stack = []) : stackNodes s = [] := by
  unfold stackNodes
  rw [h]
  rfl

/-- The diamond fixture `A: B C`, `B: D`, `C: D`, `D:` as a parsed mapping. -/
def diamondMap : List (String × List String) :=
  [("A", ["B", "C"]), ("B", ["D"]), ("C", ["D"]), ("D", [])]

/-! ### The claims -/

/-- Claim C4: if the filter substring matches the trimmed root identifier,
build_transitive_graph returns an empty graph, empty visited set, empty cycle
list and empty load order, and the provider (get_direct_deps, traced by the
ghost fetchLog) is never invoked during that run. -/
theorem claim_C4 (fopt : Option String) (deps : String → List String)
    (start_coord : String) (fuel : Nat)
    (hf : should_skip fopt (pyStrip start_coord) = true) :
    buildCore (should_skip fopt) deps start_coord fuel = emptyState ∧
    (buildCore (should_skip fopt) deps start_coord fuel).fetchLog = [] := by
  unfold buildCore
  rw [if_pos hf]
  exact ⟨rfl, rfl⟩

theorem claim_C4_witness :
    buildCore (should_skip (some "A")) (lookupDeps diamondMap) "A" 9 = emptyState ∧
    (buildCore (should_skip (some "A")) (lookupDeps diamondMap) "A" 9).fetchLog = [] :=
  claim_C4 (some "A") (lookupDeps diamondMap) "A" 9 (by decide)

/-- Claim C7: over a finite provider mapping (test-mode fixture lookup) the
DFS loop of build_transitive_graph terminates — with fuel at least the
computable bound adequateFuel the loop has emptied its stack, so every pushed
frame was popped — and the in_stack set is empty at return. -/
theorem claim_C7 (fopt : Option String) (m : List (String × List String))
    (start_coord : String) (fuel : Nat)
    (hf : adequateFuel m start_coord ≤ fuel) :
    (buildCore (should_skip fopt) (lookupDeps m) start_coord fuel).stack = [] ∧
    (buildCore (should_skip fopt) (lookupDeps m) start_coord fuel).inStack = [] := by
  unfold buildCore
  by_cases hsk : should_skip fopt (pyStrip start_coord) = true
  · rw [if_pos hsk]
    exact ⟨rfl, rfl⟩
  · rw [if_neg hsk]
    have hclosed := repoUniverse_closed m start_coord
    have hTinit : InvT (lookupDeps m) (repoUniverse m start_coord)
        (initState (lookupDeps m) (pyStrip start_coord)) := by
      refine ⟨rfl, ?_, ?_⟩
      · intro p hp
        simp only [initState, List.mem_singleton] at hp
        rw [hp]
        refine ⟨List.mem_cons_self _ _, ?_⟩
        intro v hv
        exact hclosed _ (List.mem_cons_self _ _) v hv
      · simp [initState]
    have hle : dfsMeasure (lookupDeps m) (repoUniverse m start_coord)
        (initState (lookupDeps m) (pyStrip start_coord)) ≤ fuel :=
      le_trans (dfsMeasure_init_le m start_coord) hf
    obtain ⟨h1, hT⟩ :=
      dfsRun_done (should_skip fopt) hclosed fuel
        (initState (lookupDeps m) (pyStrip start_coord)) hTinit hle
    refine ⟨h1, ?_⟩
    rw [hT.hin]
    exact stackNodes_nil h1

theorem claim_C7_witness :
    (buildCore (should_skip none) (lookupDeps [("A", ["A"])]) "A"
      (adequateFuel [("A", ["A"])] "A")).stack = [] ∧
    (buildCore (should_skip none) (lookupDeps [("A", ["A"])]) "A"
      (adequateFuel [("A", ["A"])] "A")).inStack = [] :=
  claim_C7 none [("A", ["A"])] "A" (adequateFuel [("A", ["A"])] "A")
    (Nat.le_refl _)

/-- Claim C9: in test mode the fixture file is loaded before the root filter
check, so an absent fixture file aborts the run with FileNotFoundError even
when the filter substring matches the root identifier. -/
theorem claim_C9 (start_coord repo version : String)
    (pomOracle : String → Except String (List String))
    (fopt : Option String) (fuel : Nat)
    (hf : should_skip fopt (pyStrip start_coord) = true) :
    build_transitive_graph start_coord Mode.test repo none pomOracle version
      fopt fuel = Except.error BuildError.fileNotFound := rfl

theorem claim_C9_witness :
    build_transitive_graph "A" Mode.test "missing.txt" none dummyOracle ""
      (some "A") 9 = Except.error BuildError.fileNotFound :=
  claim_C9 "A" "missing.txt" "" dummyOracle (some "A") 9 (by decide)

/-- Claim C10: in remote or local mode, get_direct_deps returns an empty
dependency list for a coordinate with no colon, attempting no fetch and
emitting no warning. -/
theorem claim_C10 (mode : Mode) (tm : List (String × List String))
    (pomOracle : String → Except String (List String))
    (version repo coord : String)
    (hm : mode ≠ Mode.test) (hc : ':' ∉ coord.data) :
    get_direct_deps mode tm pomOracle version repo coord
      = ⟨[], false, false⟩ := by
  cases mode with
  | test => exact absurd rfl hm
  | remote =>
    simp only [get_direct_deps]
    rw [if_neg hc]
  | localM =>
    simp only [get_direct_deps]
    rw [if_neg hc]

theorem claim_C10_witness :
    get_direct_deps Mode.remote [] dummyOracle "1.0" "https://repo" "nocolon"
      = ⟨[], false, false⟩ :=
  claim_C10 Mode.remote [] dummyOracle "1.0" "https://repo" "nocolon"
    (by decide) (by decide)

/-- Claim C1: after a completed run of the core DFS, every recorded edge
`u -> v` whose target does not match the filter and which is not a recorded
back-edge (no cycle entry ends with `u, v`, which is exactly how back-edges
are recorded) has `v` occurring strictly before `u` in the returned load
order; hence on acyclic reachable subgraphs the load order is a linear
extension of the dependency order. -/
theorem claim_C1 (fopt : Option String) (deps : String → List String)
    (start_coord : String) (fuel : Nat) (u v : String)
    (hdone : (buildCore (should_skip fopt) deps start_coord fuel).stack = [])
    (hmem : (u, v) ∈ (buildCore (should_skip fopt) deps start_coord fuel).graph)
    (hv : should_skip fopt v = false)
    (hnb : ∀ c ∈ (buildCore (should_skip fopt) deps start_coord fuel).cycles,
      c.drop (c.length - 2) ≠ [u, v]) :
    Before v u (buildCore (should_skip fopt) deps start_coord fuel).loadOrder := by
  by_cases hsk : should_skip fopt (pyStrip start_coord) = true
  · exfalso
    unfold buildCore at hmem
    rw [if_pos hsk] at hmem
    simp [emptyState] at hmem
  · have hskf : should_skip fopt (pyStrip start_coord) = false := by
      cases hb : should_skip fopt (pyStrip start_coord)
      · rfl
      · exact absurd hb hsk
    have hI := inv_buildCore fopt deps start_coord fuel hskf
    have hsn := stackNodes_nil hdone
    have hE := hI.hedge (u, v) hmem hv
    rcases hE with ⟨c, hcm, c0, hce⟩ | ⟨h1, h2⟩ | h | h
    · exfalso
      apply hnb c hcm
      rw [hce]
      have hlen : (c0 ++ [(u, v).1, (u, v).2]).length - 2 = c0.length := by
        simp
      rw [hlen]
      exact List.drop_left c0 [(u, v).1, (u, v).2]
    · exfalso
      rw [hsn] at h2
      simp at h2
    · exact h
    · exfalso
      rw [hsn] at h
      exact before_nil_elim h

theorem claim_C1_witness :
    Before "C" "A" (buildCore (should_skip none) (lookupDeps diamondMap)
      "A" 9).loadOrder :=
  claim_C1 none (lookupDeps diamondMap) "A" 9 "A" "C" (by decide) (by decide)
    (by decide) (by decide)

/-- Claim C8: after every completed run, the returned load order contains
exactly the elements of the returned visited set, each exactly once, and
every source of a recorded edge (every key of the graph) is visited. -/
theorem claim_C8 (fopt : Option String) (deps : String → List String)
    (start_coord : String) (fuel : Nat)
    (hdone : (buildCore (should_skip fopt) deps start_coord fuel).stack = []) :
    (buildCore (should_skip fopt) deps start_coord fuel).loadOrder.Nodup ∧
    (∀ x, x ∈ (buildCore (should_skip fopt) deps start_coord fuel).loadOrder ↔
      x ∈ (buildCore (should_skip fopt) deps start_coord fuel).visited) ∧
    (∀ e ∈ (buildCore (should_skip fopt) deps start_coord fuel).graph,
      e.1 ∈ (buildCore (should_skip fopt) deps start_coord fuel).visited) := by
  by_cases hsk : should_skip fopt (pyStrip start_coord) = true
  · unfold buildCore
    rw [if_pos hsk]
    refine ⟨?_, ?_, ?_⟩ <;> simp [emptyState]
  · have hskf : should_skip fopt (pyStrip start_coord) = false := by
      cases hb : should_skip fopt (pyStrip start_coord)
      · rfl
      · exact absurd hb hsk
    have hI := inv_buildCore fopt deps start_coord fuel hskf
    have hsn := stackNodes_nil hdone
    refine ⟨?_, ?_, ?_⟩
    · rw [← hI.hvl]
      exact hI.hvnd
    · intro x
      rw [hI.hvl]
    · intro e he
      rcases hI.hkeys e he with h | h
      · rw [hsn] at h
        simp at h
      · exact h

theorem claim_C8_witness :
    (buildCore (should_skip none) (lookupDeps diamondMap) "A" 10).loadOrder.Nodup ∧
    (∀ x, x ∈ (buildCore (should_skip none) (lookupDeps diamondMap)
        "A" 10).loadOrder ↔
      x ∈ (buildCore (should_skip none) (lookupDeps diamondMap) "A" 10).visited) ∧
    (∀ e ∈ (buildCore (should_skip none) (lookupDeps diamondMap) "A" 10).graph,
      e.1 ∈ (buildCore (should_skip none) (lookupDeps diamondMap)
        "A" 10).visited) :=
  claim_C8 none (lookupDeps diamondMap) "A" 10 (by decide)

/-- Claim C2: a neighbor matching the filter has its edge recorded in the
graph with the excluded marker and is never pushed: at every point of every
run a filter-matching identifier is absent from in_stack, from the stack
nodes, from visited and from the load order (first conjunct), the step on a
matching neighbor records exactly the marked edge and advances the iterator
(second conjunct), and on the fixture `A: B C` with filter substring B the
edge A -> B is recorded marked, B is absent from visited and load order, and
C is fully expanded (third conjunct). -/
theorem claim_C2 :
    (∀ (fopt : Option String) (deps : String → List String)
      (start_coord : String) (fuel : Nat) (n : String),
      should_skip fopt n = true →
      n ∉ (buildCore (should_skip fopt) deps start_coord fuel).inStack ∧
      n ∉ stackNodes (buildCore (should_skip fopt) deps start_coord fuel) ∧
      n ∉ (buildCore (should_skip fopt) deps start_coord fuel).visited ∧
      n ∉ (buildCore (should_skip fopt) deps start_coord fuel).loadOrder) ∧
    (∀ (skip : String → Bool) (deps : String → List String) (s : DFSState)
      (node nbr : String) (nbrs : List String)
      (rest : List (String × List String)),
      s.stack = (node, nbr :: nbrs) :: rest → skip nbr = true →
      dfsStep skip deps s = some { s with
        stack := (node, nbrs) :: rest,
        graph := insertEdge s.graph node (nbr ++ " (skipped)") }) ∧
    (∀ fuel, 4 ≤ fuel → ∃ st,
      build_transitive_graph "A" Mode.test "repo.txt" (some "A: B C")
        dummyOracle "" (some "B") fuel = Except.ok st ∧
      ("A", "B" ++ " (skipped)") ∈ st.graph ∧
      "B" ∉ st.visited ∧ "B" ∉ st.loadOrder ∧ "C" ∈ st.visited ∧
      st.loadOrder = ["C", "A"]) := by
  refine ⟨?_, ?_, ?_⟩
  · intro fopt deps start_coord fuel n hn
    by_cases hsk : should_skip fopt (pyStrip start_coord) = true
    · unfold buildCore
      rw [if_pos hsk]
      simp [emptyState, stackNodes]
    · have hskf : should_skip fopt (pyStrip start_coord) = false := by
        cases hb : should_skip fopt (pyStrip start_coord)
        · rfl
        · exact absurd hb hsk
      have hI := inv_buildCore fopt deps start_coord fuel hskf
      have hstack : n ∉ stackNodes (buildCore (should_skip fopt) deps
          start_coord fuel) := by
        intro hmem
        have := hI.hskS n hmem
        rw [this] at hn
        exact Bool.noConfusion hn
      have hvisited : n ∉ (buildCore (should_skip fopt) deps
          start_coord fuel).visited := by
        intro hmem
        have := hI.hskV n hmem
        rw [this] at hn
        exact Bool.noConfusion hn
      refine ⟨?_, hstack, hvisited, ?_⟩
      · rw [hI.hin]
        exact hstack
      · rw [← hI.hvl]
        exact hvisited
  · intro skip deps s node nbr nbrs rest hstack hsk
    unfold dfsStep
    rw [hstack]
    dsimp only
    rw [if_pos hsk]
  · intro fuel hf
    have hstack4 : (buildCore (should_skip (some "B"))
        (fun c => (get_direct_deps Mode.test (load_test_repo "A: B C")
          dummyOracle "" "repo.txt" c).deps) "A" 4).stack = [] := by decide
    have heq : build_transitive_graph "A" Mode.test "repo.txt" (some "A: B C")
        dummyOracle "" (some "B") fuel
        = Except.ok (buildCore (should_skip (some "B"))
          (fun c => (get_direct_deps Mode.test (load_test_repo "A: B C")
            dummyOracle "" "repo.txt" c).deps) "A" fuel) := rfl
    rw [heq, buildCore_stable hstack4 hf]
    exact ⟨_, rfl, by decide, by decide, by decide, by decide, by decide⟩

theorem claim_C2_witness : ∃ st,
    build_transitive_graph "A" Mode.test "repo.txt" (some "A: B C")
      dummyOracle "" (some "B") 4 = Except.ok st ∧
    ("A", "B" ++ " (skipped)") ∈ st.graph ∧
    "B" ∉ st.visited ∧ "B" ∉ st.loadOrder ∧ "C" ∈ st.visited ∧
    st.loadOrder = ["C", "A"] :=
  claim_C2.2.2 4 (by decide)

/-- Claim C3: when the top frame's next non-filtered neighbor is already in
in_stack, the appended cycle is exactly the push-ordered stack suffix from
the first (deepest) frame equal to that neighbor through the top frame,
closed by the neighbor once more, and the neighbor is not pushed again
(first conjunct: the step appends cyclePath over the push-ordered stack
nodes; second conjunct: that suffix starts at the first occurrence of the
neighbor and runs through the last pushed frame); on the fixture `A: B`,
`B: A` this yields cycles [[A, B, A]], visited {A, B} and the load order in
pop order [B, A] (third conjunct). -/
theorem claim_C3 :
    (∀ (skip : String → Bool) (deps : String → List String) (s : DFSState)
      (node nbr : String) (nbrs : List String)
      (rest : List (String × List String)),
      s.stack = (node, nbr :: nbrs) :: rest → skip nbr = false →
      nbr ∈ s.inStack →
      dfsStep skip deps s = some { s with
        stack := (node, nbrs) :: rest,
        graph := insertEdge s.graph node nbr,
        cycles := s.cycles ++
          [cyclePath (((node, nbrs) :: rest).map Prod.fst).reverse nbr] }) ∧
    (∀ (path : List String) (nbr : String), nbr ∈ path →
      path = path.take (firstIdx nbr path) ++ path.drop (firstIdx nbr path) ∧
      nbr ∉ path.take (firstIdx nbr path) ∧
      (path.drop (firstIdx nbr path)).head? = some nbr ∧
      (path.drop (firstIdx nbr path)).getLast? = path.getLast?) ∧
    (∀ fuel, 4 ≤ fuel → ∃ st,
      build_transitive_graph "A" Mode.test "repo.txt" (some "A: B\nB: A")
        dummyOracle "" none fuel = Except.ok st ∧
      st.cycles = [["A", "B", "A"]] ∧ st.visited = ["B", "A"] ∧
      st.loadOrder = ["B", "A"]) := by
  refine ⟨?_, ?_, ?_⟩
  · intro skip deps s node nbr nbrs rest hstack hsk hmem
    have hnsk : ¬ skip nbr = true := by
      intro hcon
      rw [hcon] at hsk
      exact Bool.noConfusion hsk
    unfold dfsStep
    rw [hstack]
    dsimp only
    rw [if_neg hnsk, if_pos hmem]
  · intro path nbr h
    refine ⟨(List.take_append_drop _ path).symm, not_mem_take_firstIdx nbr path,
      head?_drop_firstIdx h, getLast?_drop_of_lt (firstIdx_lt_length h)⟩
  · intro fuel hf
    have hstack4 : (buildCore (should_skip none)
        (fun c => (get_direct_deps Mode.test (load_test_repo "A: B\nB: A")
          dummyOracle "" "repo.txt" c).deps) "A" 4).stack = [] := by decide
    have heq : build_transitive_graph "A" Mode.test "repo.txt"
        (some "A: B\nB: A") dummyOracle "" none fuel
        = Except.ok (buildCore (should_skip none)
          (fun c => (get_direct_deps Mode.test (load_test_repo "A: B\nB: A")
            dummyOracle "" "repo.txt" c).deps) "A" fuel) := rfl
    rw [heq, buildCore_stable hstack4 hf]
    exact ⟨_, rfl, by decide, by decide, by decide⟩

theorem claim_C3_witness : ∃ st,
    build_transitive_graph "A" Mode.test "repo.txt" (some "A: B\nB: A")
      dummyOracle "" none 4 = Except.ok st ∧
    st.cycles = [["A", "B", "A"]] ∧ st.visited = ["B", "A"] ∧
    st.loadOrder = ["B", "A"] :=
  claim_C3.2.2 4 (by decide)

/-- Claim C5: the provider (get_direct_deps, traced by the ghost fetchLog) is
invoked exactly once per distinct node pushed onto the stack, at push time:
after a completed run the fetch log is duplicate-free and coincides with the
visited set (first conjunct), the push step fetches and logs exactly the
pushed neighbor (second conjunct), filtered identifiers are never fetched
(third conjunct), and in the diamond fixture the shared node D is fetched
once while acquiring two in-edges (fourth conjunct). -/
theorem claim_C5 :
    (∀ (fopt : Option String) (deps : String → List String)
      (start_coord : String) (fuel : Nat),
      (buildCore (should_skip fopt) deps start_coord fuel).stack = [] →
      (buildCore (should_skip fopt) deps start_coord fuel).fetchLog.Nodup ∧
      (∀ x, x ∈ (buildCore (should_skip fopt) deps start_coord fuel).fetchLog ↔
        x ∈ (buildCore (should_skip fopt) deps start_coord fuel).visited)) ∧
    (∀ (skip : String → Bool) (deps : String → List String) (s : DFSState)
      (node nbr : String) (nbrs : List String)
      (rest : List (String × List String)),
      s.stack = (node, nbr :: nbrs) :: rest → skip nbr = false →
      nbr ∉ s.inStack → nbr ∉ s.visited →
      dfsStep skip deps s = some { s with
        stack := (nbr, deps nbr) :: (node, nbrs) :: rest,
        inStack := nbr :: s.inStack,
        graph := insertEdge s.graph node nbr,
        fetchLog := s.fetchLog ++ [nbr] }) ∧
    (∀ (fopt : Option String) (deps : String → List String)
      (start_coord : String) (fuel : Nat) (x : String),
      x ∈ (buildCore (should_skip fopt) deps start_coord fuel).fetchLog →
      should_skip fopt x = false) ∧
    (∀ fuel, 8 ≤ fuel → ∃ st,
      build_transitive_graph "A" Mode.test "repo.txt"
        (some "A: B C\nB: D\nC: D\nD:") dummyOracle "" none fuel
        = Except.ok st ∧
      st.fetchLog = ["A", "B", "D", "C"] ∧ st.visited = ["D", "B", "C", "A"] ∧
      ("B", "D") ∈ st.graph ∧ ("C", "D") ∈ st.graph) := by
  refine ⟨?_, ?_, ?_, ?_⟩
  · intro fopt deps start_coord fuel hdone
    by_cases hsk : should_skip fopt (pyStrip start_coord) = true
    · unfold buildCore
      rw [if_pos hsk]
      constructor
      · exact List.nodup_nil
      · intro x
        simp [emptyState]
    · have hskf : should_skip fopt (pyStrip start_coord) = false := by
        cases hb : should_skip fopt (pyStrip start_coord)
        · rfl
        · exact absurd hb hsk
      have hI := inv_buildCore fopt deps start_coord fuel hskf
      have hsn := stackNodes_nil hdone
      refine ⟨hI.hfnd, ?_⟩
      intro x
      have := hI.hflog x
      rw [hsn] at this
      simpa using this
  · intro skip deps s node nbr nbrs rest hstack hsk hni hnv
    have hnsk : ¬ skip nbr = true := by
      intro hcon
      rw [hcon] at hsk
      exact Bool.noConfusion hsk
    unfold dfsStep
    rw [hstack]
    dsimp only
    rw [if_neg hnsk, if_neg hni, if_neg hnv]
  · intro fopt deps start_coord fuel x hx
    by_cases hsk : should_skip fopt (pyStrip start_coord) = true
    · exfalso
      unfold buildCore at hx
      rw [if_pos hsk] at hx
      simp [emptyState] at hx
    · have hskf : should_skip fopt (pyStrip start_coord) = false := by
        cases hb : should_skip fopt (pyStrip start_coord)
        · rfl
        · exact absurd hb hsk
      have hI := inv_buildCore fopt deps start_coord fuel hskf
      rcases (hI.hflog x).mp hx with h | h
      · exact hI.hskS x h
      · exact hI.hskV x h
  · intro fuel hf
    have hstack8 : (buildCore (should_skip none)
        (fun c => (get_direct_deps Mode.test
          (load_test_repo "A: B C\nB: D\nC: D\nD:")
          dummyOracle "" "repo.txt" c).deps) "A" 8).stack = [] := by decide
    have heq : build_transitive_graph "A" Mode.test "repo.txt"
        (some "A: B C\nB: D\nC: D\nD:") dummyOracle "" none fuel
        = Except.ok (buildCore (should_skip none)
          (fun c => (get_direct_deps Mode.test
            (load_test_repo "A: B C\nB: D\nC: D\nD:")
            dummyOracle "" "repo.txt" c).deps) "A" fuel) := rfl
    rw [heq, buildCore_stable hstack8 hf]
    exact ⟨_, rfl, by decide, by decide, by decide, by decide⟩

theorem claim_C5_witness :
    (buildCore (should_skip none) (lookupDeps diamondMap) "A" 8).fetchLog.Nodup ∧
    (∀ x, x ∈ (buildCore (should_skip none) (lookupDeps diamondMap)
        "A" 8).fetchLog ↔
      x ∈ (buildCore (should_skip none) (lookupDeps diamondMap) "A" 8).visited) :=
  claim_C5.1 none (lookupDeps diamondMap) "A" 8 (by decide)

/-- Claim C6: a test-mode run over the fixture `A: A` with no filter returns
cycles equal to [[A, A]] — the single self-loop closed by repeating A — and
load order [A], with A appearing exactly once. -/
theorem claim_C6 (fuel : Nat) (hf : 2 ≤ fuel) :
    ∃ st, build_transitive_graph "A" Mode.test "repo.txt" (some "A: A")
      dummyOracle "" none fuel = Except.ok st ∧
      st.cycles = [["A", "A"]] ∧ st.loadOrder = ["A"] := by
  have hstack2 : (buildCore (should_skip none)
      (fun c => (get_direct_deps Mode.test (load_test_repo "A: A")
        dummyOracle "" "repo.txt" c).deps) "A" 2).stack = [] := by decide
  have heq : build_transitive_graph "A" Mode.test "repo.txt" (some "A: A")
      dummyOracle "" none fuel
      = Except.ok (buildCore (should_skip none)
        (fun c => (get_direct_deps Mode.test (load_test_repo "A: A")
          dummyOracle "" "repo.txt" c).deps) "A" fuel) := rfl
  rw [heq, buildCore_stable hstack2 hf]
  exact ⟨_, rfl, by decide, by decide⟩

theorem claim_C6_witness :
    ∃ st, build_transitive_graph "A" Mode.test "repo.txt" (some "A: A")
      dummyOracle "" none 2 = Except.ok st ∧
      st.cycles = [["A", "A"]] ∧ st.loadOrder = ["A"] :=
  claim_C6 2 (by decide)

end Conf2
